import Mathlib

/-!
# Verification of the merchant-categorization subsystem

Shallow embedding, in Lean 4, of the categorization engine of the
`asset_management` repository (files `categorization_engine.py`, `util.py`,
`categorize.py`, `enhanced_review_workflow.py`) together with proofs of the
behavioural claims made by the natural-language specification.

Modelling conventions:
* Python strings are Lean `String`s; `str.lower()` is `pyLower`
  (faithful on the ASCII inputs exercised here).
* Python floats used as confidences/scores are exact rationals `ℚ`
  (the spec constrains confidences to [0,1]); aggregate transaction
  amounts are `Int` (the billing data holds integral JPY amounts).
* `re.search(pat, s, re.IGNORECASE)` is an oracle
  `rsearch : String → Option (String → Bool)`: `rsearch pat = none`
  models a pattern whose compilation raises `re.error`, and
  `rsearch pat = some f` models a successfully compiled case-insensitive
  search predicate.
* The remote LLM classifier and the fuzzy `fuzz.ratio` similarity are
  likewise oracles (`llm`, `simf`); the proofs quantify over them.
* Fallible Python code is embedded in `Except String`; an uncaught Python
  exception is `Except.error`.
-/

/-! ## Basic Python string operations

All string manipulation is done on the underlying character lists, since
the byte-position-based `String` primitives do not reduce inside the
kernel. -/

/-- Python's `str.lower()` (faithful on the ASCII inputs of this code
base; the Japanese characters appearing in rules are case-less under both
`str.lower` and `Char.toLower`). -/
def pyLower (s : String) : String := String.mk (s.data.map Char.toLower)

/-- Python's substring test `needle in haystack`, on character lists. -/
def listSub [BEq α] : List α → List α → Bool
  | n, [] => n.isEmpty
  | n, h :: t => n.isPrefixOf (h :: t) || listSub n t

/-- Python's `needle in haystack` for strings. -/
def pyIn (needle haystack : String) : Bool :=
  listSub needle.data haystack.data

/-- Characters matched by Python's `\s` on the inputs of this code base
(ASCII whitespace plus the ideographic space appearing in merchant names). -/
def isPySpace (c : Char) : Bool :=
  c = ' ' || c = '\t' || c = '\n' || c = '\r' || c = '\x0b' || c = '\x0c' || c = '　'

/-- Collapse every run of whitespace to a single ASCII space
(`re.sub(r'\s+', ' ', s)`). -/
def collapseWs : List Char → List Char
  | [] => []
  | [c] => if isPySpace c then [' '] else [c]
  | c₁ :: c₂ :: cs =>
    if isPySpace c₁ && isPySpace c₂ then collapseWs (c₂ :: cs)
    else (if isPySpace c₁ then ' ' else c₁) :: collapseWs (c₂ :: cs)

example : pyIn "amazon" "amazon.co.jp" = true := by decide
example : pyIn "go" "amazon.co.jp" = false := by decide

/-! ## The rule store (`categorization_engine.py`) -/

/-- The decimal confidence value `n/100`: the source's float literals
`0.95`, `0.8`, `0.7`, `0.6`, … are `conf 95`, `conf 80`, `conf 70`,
`conf 60`, … (exact rationals; Python compares these short decimals
exactly). -/
def conf (n : Nat) : ℚ := mkRat n 100

/-- The `CategoryRule` dataclass (`categorization_engine.py` lines 14-23).
`created_at` is an abstract timestamp. -/
structure CategoryRule where
  pattern : String
  category : String
  confidence : ℚ
  rule_type : String
  created_by : String
  created_at : Nat
  usage_count : Nat
deriving DecidableEq, Repr

/-- One rule's match test inside `_apply_rules` (lines 185-195).
An invalid regex (`rsearch r.pattern = none`, i.e. `re.error`) makes the
loop `continue`, which is observationally a non-match. -/
def ruleMatch (rsearch : String → Option (String → Bool))
    (merchantLower : String) (r : CategoryRule) : Bool :=
  if r.rule_type == "exact" then merchantLower == pyLower r.pattern
  else if r.rule_type == "contains" then pyIn (pyLower r.pattern) merchantLower
  else if r.rule_type == "regex" then
    match rsearch r.pattern with
    | some search => search merchantLower
    | none => false
  else false

/-- The running best of `_apply_rules` (lines 178-180). -/
structure ApplyState where
  best_category : String
  best_confidence : ℚ
  best_method : String
deriving DecidableEq, Repr

/-- Initial running best: `("Unknown", 0.0, "no_match")`. -/
def initApplyState : ApplyState := ⟨"Unknown", 0, "no_match"⟩

/-- The loop of `_apply_rules` (lines 184-201): threads the running best
and returns the (usage-count-updated) rule list. A rule that matches and
strictly improves the running best becomes the new best and has its
`usage_count` incremented. -/
def applyRulesAux (rsearch : String → Option (String → Bool)) (ml : String) :
    List CategoryRule → ApplyState → ApplyState × List CategoryRule
  | [], st => (st, [])
  | r :: rs, st =>
    if ruleMatch rsearch ml r = true ∧ st.best_confidence < r.confidence then
      let p := applyRulesAux rsearch ml rs
        ⟨r.category, r.confidence, "rule_" ++ r.rule_type⟩
      (p.1, { r with usage_count := r.usage_count + 1 } :: p.2)
    else
      let p := applyRulesAux rsearch ml rs st
      (p.1, r :: p.2)

/-- Embedding of `_apply_rules` (lines 176-203): lowercases the merchant, scans all
rules, returns the best `(category, confidence, method)` triple together
with the mutated rule list. -/
def applyRules (rsearch : String → Option (String → Bool))
    (rules : List CategoryRule) (merchant : String) :
    (String × ℚ × String) × List CategoryRule :=
  let p := applyRulesAux rsearch (pyLower merchant) rules initApplyState
  ((p.1.best_category, p.1.best_confidence, p.1.best_method), p.2)

/-- A regex oracle under which no pattern compiles (also used wherever the
regex branch is irrelevant). -/
def rsNone : String → Option (String → Bool) := fun _ => none

example :
    (applyRules rsNone
      [⟨"amazon", "Shopping", conf 95, "contains", "system", 0, 0⟩]
      "AMAZON.CO.JP").1 = ("Shopping", conf 95, "rule_contains") := by decide

/-! ## Name cleaning and default rules (`categorization_engine.py`) -/

/-- The corporate-entity markers stripped by `_clean_merchant_name`. -/
def companyMarkers : List String := ["株式会社", "有限会社", "合同会社"]

/-- Model of `re.sub(r'^(株式会社|有限会社|合同会社)', '', s)`: the anchored pattern
can only match once, at the start. -/
def removeCompanyHead (s : String) : String :=
  match companyMarkers.find? (fun p => p.data.isPrefixOf s.data) with
  | some p => String.mk (s.data.drop p.data.length)
  | none => s

/-- Model of `re.sub(r'(株式会社|有限会社|合同会社)$', '', s)`: the anchored pattern
can only match once, ending at the end of the string. -/
def removeCompanyTail (s : String) : String :=
  match companyMarkers.find? (fun p => p.data.reverse.isPrefixOf s.data.reverse) with
  | some p => String.mk (s.data.take (s.data.length - p.data.length))
  | none => s

/-- Python's `str.strip()`. -/
def pyStrip (s : String) : String :=
  String.mk ((s.data.dropWhile isPySpace).reverse.dropWhile isPySpace |>.reverse)

/-- Embedding of `_clean_merchant_name` (lines 164-174): strip corporate markers,
remove `・＊※`, collapse whitespace, strip. -/
def cleanMerchantName (merchant : String) : String :=
  let a := removeCompanyTail (removeCompanyHead merchant)
  let b := a.data.filter (fun c => !(c = '・' || c = '＊' || c = '※'))
  pyStrip (String.mk (collapseWs b))

example : cleanMerchantName "AMAZON.CO.JP" = "AMAZON.CO.JP" := by decide
example : cleanMerchantName "株式会社テスト  ストア・" = "テスト ストア" := by decide

/-- The `self.categories` keyword table (lines 34-46), in insertion
order. -/
def defaultCategories : List (String × List String) := [
  ("Shopping", ["amazon", "楽天", "アマゾン", "ショッピング", "store", "shop"]),
  ("Utilities", ["ガス", "電気", "水道", "electric", "gas", "water", "utility"]),
  ("Transportation", ["タクシー", "go", "電車", "バス", "交通", "taxi", "train", "uber"]),
  ("Food & Dining", ["レストラン", "食事", "restaurant", "cafe", "food", "dining"]),
  ("Entertainment", ["netflix", "spotify", "映画", "entertainment", "movie", "music"]),
  ("Digital Services", ["apple", "google", "microsoft", "digital", "software", "app"]),
  ("Healthcare", ["病院", "薬", "hospital", "pharmacy", "medical", "health"]),
  ("Education", ["学校", "教育", "school", "education", "university", "course"]),
  ("Clothing", ["uniqlo", "ユニクロ", "服", "clothing", "fashion", "apparel"]),
  ("Financial", ["銀行", "金融", "bank", "finance", "credit", "loan"]),
  ("Other", [])]

/-- The hand-picked high-confidence rules (lines 96-104). -/
def highConfidenceRules : List (String × String × ℚ) := [
  ("amazon", "Shopping", conf 95),
  ("アマゾン", "Shopping", conf 95),
  ("東京ガス", "Utilities", conf 99),
  ("go(タクシー", "Transportation", conf 95),
  ("apple com", "Digital Services", conf 90),
  ("ユニクロ", "Clothing", conf 95),
  ("netflix", "Entertainment", conf 95)]

/-- Embedding of `_initialize_default_rules` (lines 79-117): one `contains` rule of
confidence 0.8 per category keyword (categories in dict order), followed
by the high-confidence overrides. -/
def defaultRules (now : Nat) : List CategoryRule :=
  (defaultCategories.foldl (fun acc ck =>
      acc ++ ck.2.map (fun kw =>
        ⟨pyLower kw, ck.1, conf 80, "contains", "system", now, 0⟩)) [])
    ++ highConfidenceRules.map (fun t =>
        ⟨pyLower t.1, t.2.1, t.2.2, "contains", "system", now, 0⟩)

/-! ## Keyword extraction and learning (`categorization_engine.py`) -/

/-- The delimiter class of `_extract_keywords`
(`re.split(r'[・\s\-_\(\)（）\*＊]+', merchant)`). -/
def isKwDelim (c : Char) : Bool :=
  isPySpace c || c = '・' || c = '-' || c = '_' || c = '(' || c = ')' ||
    c = '（' || c = '）' || c = '*' || c = '＊'

/-- Split a character list at every delimiter character (adjacent
delimiters produce empty pieces, which the length filter below removes,
matching `re.split` on a `[...]+` class). -/
def splitOnDelims (p : Char → Bool) : List Char → List Char → List String
  | [], acc => [String.mk acc.reverse]
  | c :: cs, acc =>
    if p c then String.mk acc.reverse :: splitOnDelims p cs []
    else splitOnDelims p cs (c :: acc)

/-- The stopword list of `_extract_keywords` (line 287). -/
def commonWords : List String := ["app", "com", "co", "ltd", "inc", "corp", "the", "and", "or"]

/-- Embedding of `_extract_keywords` (lines 284-298): split on the delimiter class,
keep words of length ≥ 3 whose lowercasing is not a stopword. -/
def extractKeywords (merchant : String) : List String :=
  (splitOnDelims isKwDelim merchant.data []).filter
    (fun w => 3 ≤ w.length && !(commonWords.contains (pyLower w)))

example : extractKeywords "starbucks coffee co" = ["starbucks", "coffee"] := by decide

/-- The per-keyword body of `_learn_from_categorization` (lines 262-280):
build a `contains` rule of confidence 0.6 and append it unless its
(pattern, category) pair already occurs in the accumulated rule list. -/
def learnStep (category source : String) (now : Nat)
    (acc : List CategoryRule) (keyword : String) : List CategoryRule :=
  if 3 ≤ keyword.length then
    let newRule : CategoryRule :=
      ⟨pyLower keyword, category, conf 60, "contains", source, now, 0⟩
    if acc.any (fun r => r.pattern == newRule.pattern && r.category == newRule.category)
    then acc
    else acc ++ [newRule]
  else acc

/-- Embedding of `_learn_from_categorization` (lines 255-282), omitting the learning-
data file append, which does not touch the rule list. -/
def learnFromCategorization (rules : List CategoryRule)
    (merchant category source : String) (now : Nat) : List CategoryRule :=
  if category ≠ "Unknown" ∧ category ≠ "Other" then
    (extractKeywords merchant).foldl (learnStep category source now) rules
  else rules

/-! ## `categorize_merchant` (`categorization_engine.py` lines 136-162) -/

/-- A Python value passed as the `merchant` argument (the callers feed
strings and pandas float NaNs; other values are representable too). -/
inductive PyVal where
  | pstr (s : String)
  | pfloat (q : ℚ)
  | pint (n : Int)
  | pnone
deriving DecidableEq, Repr

/-- Python truthiness of a `PyVal` (`not merchant` is `!pyTruthy v`). -/
def pyTruthy : PyVal → Bool
  | .pstr s => !(s == "")
  | .pfloat q => !(q == 0)
  | .pint n => !(n == 0)
  | .pnone => false

/-- Model of `isinstance(merchant, float)`. -/
def isFloat : PyVal → Bool
  | .pfloat _ => true
  | _ => false

/-- The observable outcome of one `categorize_merchant` call: the result
triple, the possibly mutated rule list, and whether the remote LLM
classifier was called. -/
structure CatOutcome where
  result : String × ℚ × String
  rules : List CategoryRule
  llmCalled : Bool
deriving DecidableEq, Repr

/-- Embedding of `categorize_merchant` (lines 136-162). The remote classifier
`_categorize_with_llm` is the oracle `llm` (`none` models an engine with
no configured client); its call is recorded in `llmCalled`. A truthy
non-string non-float input reaches `re.sub` inside
`_clean_merchant_name`, which raises `TypeError`. -/
def categorizeMerchant (rsearch : String → Option (String → Bool))
    (llm : Option (String → String × ℚ × String))
    (rules : List CategoryRule) (merchant : PyVal) (now : Nat) :
    Except String CatOutcome :=
  if !(pyTruthy merchant) || isFloat merchant then
    .ok ⟨("Unknown", 0, "invalid_input"), rules, false⟩
  else
    match merchant with
    | .pstr s =>
      if conf 70 < (applyRules rsearch rules (cleanMerchantName s)).1.2.1 then
        .ok ⟨(applyRules rsearch rules (cleanMerchantName s)).1,
             (applyRules rsearch rules (cleanMerchantName s)).2, false⟩
      else
        match llm with
        | some f =>
          if (applyRules rsearch rules (cleanMerchantName s)).1.2.1 < (f s).2.1 then
            .ok ⟨f s,
                 learnFromCategorization
                   (applyRules rsearch rules (cleanMerchantName s)).2
                   (cleanMerchantName s) (f s).1 "llm" now,
                 true⟩
          else
            .ok ⟨if 0 < (applyRules rsearch rules (cleanMerchantName s)).1.2.1
                 then (applyRules rsearch rules (cleanMerchantName s)).1
                 else ("Unknown", 0, "no_match"),
                 (applyRules rsearch rules (cleanMerchantName s)).2, true⟩
        | none =>
          .ok ⟨if 0 < (applyRules rsearch rules (cleanMerchantName s)).1.2.1
               then (applyRules rsearch rules (cleanMerchantName s)).1
               else ("Unknown", 0, "no_match"),
               (applyRules rsearch rules (cleanMerchantName s)).2, false⟩
    | _ => .error "TypeError: expected string or bytes-like object"

/-- A stand-in remote classifier used for concrete instances. -/
def llmStub : String → String × ℚ × String := fun _ => ("Other", conf 60, "llm_fallback")

deriving instance DecidableEq for Except

/-! ## Cache and fuzzy matcher (`util.py`, duplicated in `categorize.py`) -/

/-- The persisted exact-match cache: raw description → category, in
insertion order (a Python dict). -/
abbrev Cache := List (String × String)

/-- Embedding of `load_cache` (`util.py` lines 11-16, `categorize.py` lines 74-78).
`file` is the cache file's contents, or `none` when the file is absent;
`jsonLoad` is the outcome `json.load` would produce on those contents
(`Except.error` models a raised `JSONDecodeError`). Note there is no
`try/except` in the source: the parse outcome is returned as-is. -/
def load_cache (jsonLoad : String → Except String Cache)
    (file : Option String) : Except String Cache :=
  match file with
  | some contents => jsonLoad contents
  | none => .ok []

/-- The loop of `find_fuzzy_match` (`util.py` lines 25-34), threading the
running best and best score; `simf` is the `fuzz.ratio` similarity oracle
(0-100 integer scale). -/
def fuzzyAux (simf : String → String → Nat) (itemName : String) (threshold : Nat) :
    Cache → Option (String × String × Nat) → Nat → Option (String × String × Nat)
  | [], best, _ => best
  | e :: rest, best, bestScore =>
    if bestScore < simf itemName e.1 ∧ threshold ≤ simf itemName e.1 then
      fuzzyAux simf itemName threshold rest (some (e.1, e.2, simf itemName e.1))
        (simf itemName e.1)
    else
      fuzzyAux simf itemName threshold rest best bestScore

/-- Embedding of `find_fuzzy_match(item_name, cache, threshold=85)` (`util.py` lines
23-34, `categorize.py` lines 84-95). -/
def find_fuzzy_match (simf : String → String → Nat) (itemName : String)
    (cache : Cache) (threshold : Nat := 85) : Option (String × String × Nat) :=
  fuzzyAux simf itemName threshold cache none 0

/-- Assignment `cache[item] = value` on a Python dict: overwrite in place, or append
a new key at the end. -/
def dictSet (cache : Cache) (k v : String) : Cache :=
  if cache.any (fun p => p.1 == k) then
    cache.map (fun p => if p.1 == k then (k, v) else p)
  else cache ++ [(k, v)]

/-! ## The interactive categorization loop (`categorize.py` lines 134-197) -/

/-- A network round-trip performed by the loop body: the plain LLM
`categorize_item` call, or the `web_search_categorize` call (itself a
search + LLM round-trip). -/
inductive RemoteCall where
  | llmCategorize
  | webSearch
deriving DecidableEq, Repr

/-- What one iteration of the review loop does for one uncategorized row. -/
structure FlowResult where
  /-- The suggestion printed to the reviewer before the first prompt. -/
  suggested : String
  /-- The category written into the `Category` column. -/
  recorded : String
  /-- The cache after the iteration. -/
  cache : Cache
  /-- The remote calls performed, in order. -/
  calls : List RemoteCall
deriving DecidableEq, Repr

/-- The shared tail of the loop body (lines 168-197): dispatch on the
reviewer's first answer; `y` accepts the suggestion, `n` triggers the
web-search flow, anything else is recorded verbatim as the category.
`webOracle` is `web_search_categorize`'s outcome (`none` when it returns
`None`; the remote call happens either way); `laterInputs` are the
reviewer's answers after the first. -/
def afterConfirm (webOracle : Option (String × String)) (item suggested : String)
    (cache : Cache) (confirm : String) (laterInputs : List String)
    (callsSoFar : List RemoteCall) : FlowResult :=
  if pyLower confirm == "y" then
    ⟨suggested, suggested, dictSet cache item suggested, callsSoFar⟩
  else if pyLower confirm == "n" then
    match webOracle with
    | some w =>
      if pyLower (pyStrip ((laterInputs.get? 0).getD "")) == "y" then
        ⟨suggested, w.1, dictSet cache item w.1, callsSoFar ++ [.webSearch]⟩
      else if pyLower (pyStrip ((laterInputs.get? 0).getD "")) == "n" then
        ⟨suggested, pyStrip ((laterInputs.get? 1).getD ""),
         dictSet cache item (pyStrip ((laterInputs.get? 1).getD "")),
         callsSoFar ++ [.webSearch]⟩
      else
        ⟨suggested, pyStrip ((laterInputs.get? 0).getD ""),
         dictSet cache item (pyStrip ((laterInputs.get? 0).getD "")),
         callsSoFar ++ [.webSearch]⟩
    | none =>
      ⟨suggested, pyStrip ((laterInputs.get? 0).getD ""),
       dictSet cache item (pyStrip ((laterInputs.get? 0).getD "")),
       callsSoFar ++ [.webSearch]⟩
  else
    ⟨suggested, confirm, dictSet cache item confirm, callsSoFar⟩

/-- One iteration of the categorization loop (lines 134-197) for an
uncategorized row holding `item`: exact cache hit, else fuzzy match, else
LLM call (`llmCat` is `categorize_item`'s returned category); then the
reviewer's answers (`inputs`) decide what is recorded. -/
def processItem (simf : String → String → Nat)
    (webOracle : Option (String × String)) (llmCat : String → String)
    (item : String) (cache : Cache) (inputs : List String) : FlowResult :=
  let confirm := pyStrip ((inputs.get? 0).getD "")
  match (cache.lookup item : Option String) with
  | some cached => afterConfirm webOracle item cached cache confirm (inputs.drop 1) []
  | none =>
    match find_fuzzy_match simf item cache with
    | some f => afterConfirm webOracle item f.2.1 cache confirm (inputs.drop 1) []
    | none =>
      afterConfirm webOracle item (llmCat item) cache confirm (inputs.drop 1)
        [.llmCategorize]

example :
    (processItem (fun _ _ => 0) none (fun _ => "Other") "A"
      [("A", "Shopping")] ["y"]).recorded = "Shopping" := by decide
example :
    (processItem (fun _ _ => 0) none (fun _ => "Other") "A"
      [("A", "Shopping")] ["Food"]).recorded = "Food" := by decide

/-! ## Review workflow (`enhanced_review_workflow.py`) -/

/-- One candidate of `_get_merchants_for_review`: the tuple
`(merchant, category, confidence, method, total_amount, transaction_count)`.
Aggregate amounts are integral JPY. -/
structure ReviewEntry where
  merchant : String
  category : String
  confidence : ℚ
  method : String
  total_amount : Int
  tx_count : Nat
deriving DecidableEq, Repr

/-- Stable insertion (descending by `key`) used to model Python's stable
`sort(key=…, reverse=True)`: an element coming earlier in the original
list stays before later elements with an equal key. -/
def insDescBy (key : α → Int) (e : α) : List α → List α
  | [] => [e]
  | x :: xs => if key e < key x then x :: insDescBy key e xs else e :: x :: xs

/-- Stable descending sort by an integer key (the semantics of Python's
`list.sort(key=…, reverse=True)` / `sorted(…, key=…, reverse=True)`). -/
def sortDescBy (key : α → Int) : List α → List α
  | [] => []
  | x :: xs => insDescBy key x (sortDescBy key xs)

/-- Embedding of `_get_merchants_for_review` (lines 71-112): the candidate list sorted
by aggregate amount descending. (The annotation/join itself is I/O; its
product is the input list.) -/
def getMerchantsForReview (ms : List ReviewEntry) : List ReviewEntry :=
  sortDescBy (fun e => e.total_amount) ms

/-- Characters removed by `_extract_pattern`
(`re.sub(r'[0-9\-\*・．]', '', merchant)`). -/
def isPatternRemoved (c : Char) : Bool :=
  c.isDigit || c = '-' || c = '*' || c = '・' || c = '．'

/-- Embedding of `_extract_pattern` (lines 134-147): strip digits and the fixed
punctuation, take the first whitespace-delimited token truncated to 10
characters, or `"misc"`. -/
def extractPattern (merchant : String) : String :=
  let cleaned := merchant.data.filter (fun c => !(isPatternRemoved c))
  let words := (splitOnDelims isPySpace cleaned []).filter (fun w => !(w == ""))
  match words with
  | [] => "misc"
  | w :: _ => String.mk (w.data.take 10)

example : extractPattern "YSHOP 12 A" = "YSHOP" := by decide
example : extractPattern " 123 " = "misc" := by decide

/-- The `groups[pattern].append(…)` / fresh-key insertion on the Python dict
of `_group_similar_merchants` (dict preserves first-seen key order). -/
def addToGroups (gs : List (String × List ReviewEntry)) (p : String)
    (e : ReviewEntry) : List (String × List ReviewEntry) :=
  if gs.any (fun g => g.1 == p) then
    gs.map (fun g => if g.1 == p then (g.1, g.2 ++ [e]) else g)
  else gs ++ [(p, [e])]

/-- The total financial impact of a group
(`group_total_amount`, lines 129-130). -/
def groupTotal (g : String × List ReviewEntry) : Int :=
  (g.2.map ReviewEntry.total_amount).sum

/-- Embedding of `_group_similar_merchants` (lines 114-132): group by extracted
pattern (first-seen order), then sort the groups by total amount
descending. -/
def groupSimilarMerchants (ms : List ReviewEntry) :
    List (String × List ReviewEntry) :=
  sortDescBy groupTotal
    (ms.foldl (fun gs e => addToGroups gs (extractPattern e.merchant) e) [])

/-- The order in which merchants are presented over a whole review
session (`start_enhanced_review` lines 51-65): group after group, each
group's members in their stored order. -/
def reviewPresentationOrder (ms : List ReviewEntry) : List ReviewEntry :=
  ((groupSimilarMerchants (getMerchantsForReview ms)).map Prod.snd).flatten

/-- Presented-no-later ordering on aggregate amounts: every later entry
has an amount no larger than every earlier one. -/
def amountDescending (a b : ReviewEntry) : Prop :=
  b.total_amount ≤ a.total_amount

instance (a b : ReviewEntry) : Decidable (amountDescending a b) := by
  unfold amountDescending
  infer_instance

/-! ## Lemmas about `_apply_rules` -/

theorem applyRulesAux_nil (rsearch : String → Option (String → Bool)) (ml : String)
    (st : ApplyState) : applyRulesAux rsearch ml [] st = (st, []) := rfl

theorem applyRulesAux_cons (rsearch : String → Option (String → Bool)) (ml : String)
    (r : CategoryRule) (rs : List CategoryRule) (st : ApplyState) :
    applyRulesAux rsearch ml (r :: rs) st =
      if ruleMatch rsearch ml r = true ∧ st.best_confidence < r.confidence then
        ((applyRulesAux rsearch ml rs ⟨r.category, r.confidence, "rule_" ++ r.rule_type⟩).1,
          { r with usage_count := r.usage_count + 1 } ::
            (applyRulesAux rsearch ml rs ⟨r.category, r.confidence, "rule_" ++ r.rule_type⟩).2)
      else
        ((applyRulesAux rsearch ml rs st).1, r :: (applyRulesAux rsearch ml rs st).2) := by
  by_cases h : ruleMatch rsearch ml r = true ∧ st.best_confidence < r.confidence
  · rw [if_pos h]; simp [applyRulesAux, h]
  · rw [if_neg h]; simp [applyRulesAux, h]

/-- Full characterization of the running best computed by the
`_apply_rules` loop, relative to an arbitrary initial state: either no
matching rule strictly improves on the initial best and the state is
returned unchanged, or the final state carries the data of the first
matching rule attaining the maximal confidence among matching rules. -/
theorem applyRulesAux_char (rsearch : String → Option (String → Bool)) (ml : String) :
    ∀ (rules : List CategoryRule) (st : ApplyState),
    ((applyRulesAux rsearch ml rules st).1 = st ∧
      ∀ r ∈ rules.filter (ruleMatch rsearch ml), r.confidence ≤ st.best_confidence) ∨
    (∃ M₁ w M₂, rules.filter (ruleMatch rsearch ml) = M₁ ++ w :: M₂ ∧
      st.best_confidence < w.confidence ∧
      (∀ r ∈ M₁, r.confidence < w.confidence) ∧
      (∀ r ∈ M₂, r.confidence ≤ w.confidence) ∧
      (applyRulesAux rsearch ml rules st).1 =
        ⟨w.category, w.confidence, "rule_" ++ w.rule_type⟩) := by
  intro rules
  induction rules with
  | nil => intro st; exact Or.inl ⟨rfl, by simp⟩
  | cons r rs ih =>
    intro st
    by_cases hm : ruleMatch rsearch ml r = true
    · by_cases hc : st.best_confidence < r.confidence
      · rw [applyRulesAux_cons, if_pos ⟨hm, hc⟩]
        rcases ih ⟨r.category, r.confidence, "rule_" ++ r.rule_type⟩ with ⟨h1, h2⟩ |
          ⟨A, w, B, hsplit, hlt, hA, hB, hres⟩
        · exact Or.inr ⟨[], r, rs.filter (ruleMatch rsearch ml),
            by simp [List.filter_cons, hm], hc, by simp, h2, h1⟩
        · exact Or.inr ⟨r :: A, w, B, by simp [List.filter_cons, hm, hsplit],
            lt_trans hc hlt,
            by intro x hx; rcases List.mem_cons.1 hx with h | h
               · exact h ▸ hlt
               · exact hA x h,
            hB, hres⟩
      · rw [applyRulesAux_cons, if_neg (by simp [hc])]
        rcases ih st with ⟨h1, h2⟩ | ⟨A, w, B, hsplit, hlt, hA, hB, hres⟩
        · refine Or.inl ⟨h1, ?_⟩
          intro x hx
          rw [List.filter_cons, if_pos (by simp [hm])] at hx
          rcases List.mem_cons.1 hx with h | h
          · exact h ▸ le_of_not_lt hc
          · exact h2 x h
        · refine Or.inr ⟨r :: A, w, B, by simp [List.filter_cons, hm, hsplit], hlt, ?_, hB, hres⟩
          intro x hx
          rcases List.mem_cons.1 hx with h | h
          · exact h ▸ lt_of_le_of_lt (le_of_not_lt hc) hlt
          · exact hA x h
    · rw [applyRulesAux_cons, if_neg (by simp [hm])]
      have hf : (r :: rs).filter (ruleMatch rsearch ml) = rs.filter (ruleMatch rsearch ml) := by
        simp [List.filter_cons, hm]
      rw [hf]
      exact ih st

/-- In a list with a distinguished element `x` strictly greater (under
`f`) than everything before it and at least everything in the list, and
likewise `y`, the two distinguished elements coincide: the first element
attaining the maximum is unique. -/
theorem firstMaxUnique (f : CategoryRule → ℚ) :
    ∀ (A : List CategoryRule) (x : CategoryRule) (B C : List CategoryRule)
      (y : CategoryRule) (D : List CategoryRule),
    A ++ x :: B = C ++ y :: D →
    (∀ a ∈ A, f a < f x) → (∀ c ∈ C, f c < f y) →
    (∀ r ∈ A ++ x :: B, f r ≤ f x) → (∀ r ∈ C ++ y :: D, f r ≤ f y) →
    x = y := by
  intro A
  induction A with
  | nil =>
    intro x B C y D heq hA hC hX hY
    cases C with
    | nil =>
      simp only [List.nil_append] at heq
      exact (List.cons.injEq _ _ _ _ ▸ heq).1
    | cons c C' =>
      simp only [List.nil_append, List.cons_append] at heq
      have h1 : x = c := (List.cons.injEq _ _ _ _ ▸ heq).1
      have h2 : B = C' ++ y :: D := (List.cons.injEq _ _ _ _ ▸ heq).2
      have hxy : f x < f y := h1 ▸ hC c (by simp)
      have hyx : f y ≤ f x := hX y (by simp [h2])
      exact absurd hxy (not_lt.2 hyx)
  | cons a A' ih =>
    intro x B C y D heq hA hC hX hY
    cases C with
    | nil =>
      simp only [List.cons_append, List.nil_append] at heq
      have h1 : a = y := (List.cons.injEq _ _ _ _ ▸ heq).1
      have h2 : A' ++ x :: B = D := (List.cons.injEq _ _ _ _ ▸ heq).2
      have h3 : f a < f x := hA a (by simp)
      have h4 : f x ≤ f y := hY x (by simp [← h2])
      exact absurd h3 (not_lt.2 (h1 ▸ h4))
    | cons c C' =>
      simp only [List.cons_append] at heq
      have h1 : a = c := (List.cons.injEq _ _ _ _ ▸ heq).1
      have h2 : A' ++ x :: B = C' ++ y :: D := (List.cons.injEq _ _ _ _ ▸ heq).2
      exact ih x B C' y D h2
        (fun r hr => hA r (by simp [hr]))
        (fun r hr => hC r (by simp [hr]))
        (fun r hr => hX r (by simp at hr ⊢; tauto))
        (fun r hr => hY r (by simp at hr ⊢; tauto))

/-! ## Claim C1: selection policy of `_apply_rules` -/

/-- C1 (amended): for every rule list and merchant, `_apply_rules`
returns the category, confidence and method of the first rule attaining
the highest confidence among all matching rules **of positive
confidence** (so ties are broken by stored order); when no rule matches
with positive confidence — in particular when no rule matches at all —
it returns `("Unknown", 0.0, "no_match")`. (The claim's original wording,
without the positivity proviso, fails: see the counterexample.) -/
theorem applyRules_selects_best (rsearch : String → Option (String → Bool))
    (rules : List CategoryRule) (m : String) :
    ((∀ r ∈ rules.filter (ruleMatch rsearch (pyLower m)), r.confidence ≤ 0) →
      (applyRules rsearch rules m).1 = ("Unknown", 0, "no_match")) ∧
    (∀ w M₁ M₂, rules.filter (ruleMatch rsearch (pyLower m)) = M₁ ++ w :: M₂ →
      0 < w.confidence →
      (∀ r ∈ M₁, r.confidence < w.confidence) →
      (∀ r ∈ rules.filter (ruleMatch rsearch (pyLower m)), r.confidence ≤ w.confidence) →
      (applyRules rsearch rules m).1 = (w.category, w.confidence, "rule_" ++ w.rule_type)) := by
  constructor
  · intro h
    rcases applyRulesAux_char rsearch (pyLower m) rules initApplyState with
      ⟨h1, _⟩ | ⟨A, w, B, hsplit, hlt, _, _, _⟩
    · simp only [applyRules]
      rw [h1]
      rfl
    · exfalso
      have hw : w ∈ rules.filter (ruleMatch rsearch (pyLower m)) := by
        rw [hsplit]; simp
      have := h w hw
      have h0 : initApplyState.best_confidence = 0 := rfl
      rw [h0] at hlt
      exact absurd hlt (not_lt.2 this)
  · intro w M₁ M₂ hsplit hpos hM₁ hMax
    rcases applyRulesAux_char rsearch (pyLower m) rules initApplyState with
      ⟨_, h2⟩ | ⟨A, w', B, hsplit', hlt', hA', hB', hres⟩
    · exfalso
      have hw : w ∈ rules.filter (ruleMatch rsearch (pyLower m)) := by
        rw [hsplit]; simp
      exact absurd hpos (not_lt.2 (h2 w hw))
    · have hXfull : ∀ r ∈ A ++ w' :: B, r.confidence ≤ w'.confidence := by
        intro r hr
        rcases List.mem_append.1 hr with h | h
        · exact le_of_lt (hA' r h)
        · rcases List.mem_cons.1 h with h | h
          · exact h ▸ le_refl _
          · exact hB' r h
      have hYfull : ∀ r ∈ M₁ ++ w :: M₂, r.confidence ≤ w.confidence := by
        intro r hr; exact hMax r (hsplit ▸ hr)
      have hww : w' = w :=
        firstMaxUnique CategoryRule.confidence A w' B M₁ w M₂
          (hsplit'.symm.trans hsplit) hA' hM₁ hXfull hYfull
      rw [hww] at hres
      simp [applyRules, hres]

/-- C1 counterexample: a `contains` rule with confidence 0.0 matches the
merchant and is the unique (hence highest-confidence) matching rule, yet
`_apply_rules` does not return its category/method — the strict
`rule.confidence > best_confidence` comparison against the initial best
of 0.0 makes it lose, and `("Unknown", 0.0, "no_match")` is returned. -/
theorem applyRules_selects_best_cex :
    ruleMatch rsNone "a" ⟨"a", "X", 0, "contains", "system", 0, 0⟩ = true ∧
    (applyRules rsNone [⟨"a", "X", 0, "contains", "system", 0, 0⟩] "a").1 ≠
      ("X", 0, "rule_contains") ∧
    (applyRules rsNone [⟨"a", "X", 0, "contains", "system", 0, 0⟩] "a").1 =
      ("Unknown", 0, "no_match") := by
  refine ⟨by decide, ?_, by decide⟩
  intro h
  have : ("Unknown", (0 : ℚ), "no_match") = (("X", 0, "rule_contains") : String × ℚ × String) := by
    rw [← h]; decide
  simp at this

/-- C1 witness: with two matching `contains` rules of confidences 0.5 and
0.9, the 0.9 rule (second in stored order) wins. -/
theorem applyRules_selects_best_witness :
    (applyRules rsNone
      [⟨"a", "X", mkRat 1 2, "contains", "system", 0, 0⟩,
       ⟨"ab", "Y", mkRat 9 10, "contains", "system", 0, 0⟩] "abc").1 =
      ("Y", mkRat 9 10, "rule_contains") :=
  (applyRules_selects_best rsNone
      [⟨"a", "X", mkRat 1 2, "contains", "system", 0, 0⟩,
       ⟨"ab", "Y", mkRat 9 10, "contains", "system", 0, 0⟩] "abc").2
    ⟨"ab", "Y", mkRat 9 10, "contains", "system", 0, 0⟩
    [⟨"a", "X", mkRat 1 2, "contains", "system", 0, 0⟩] []
    (by decide) (by decide) (by decide) (by decide)

/-! ## Claim C9: `usage_count` updates in `_apply_rules` -/

/-- Fold of `max` over rule confidences, starting from `b`. -/
def confFold (b : ℚ) (l : List CategoryRule) : ℚ :=
  l.foldl (fun a r => max a r.confidence) b

/-- The running best confidence held by the `_apply_rules` loop just
before it examines the rule at index `i`: the maximum of 0.0 and the
confidences of the matching rules strictly before `i`. -/
def runningBestAt (rsearch : String → Option (String → Bool)) (ml : String)
    (rules : List CategoryRule) (i : Nat) : ℚ :=
  confFold 0 ((rules.take i).filter (ruleMatch rsearch ml))

theorem confFold_cons (b : ℚ) (r : CategoryRule) (l : List CategoryRule) :
    confFold b (r :: l) = confFold (max b r.confidence) l := rfl

/-- Positional characterization of the rule list returned by the
`_apply_rules` loop: the rule at index `i` gets its `usage_count`
incremented exactly when it matches and strictly improves the running
best it is compared against; otherwise it is returned unchanged. -/
theorem applyRulesAux_usage (rsearch : String → Option (String → Bool)) (ml : String) :
    ∀ (rules : List CategoryRule) (st : ApplyState) (i : Nat) (r : CategoryRule),
    rules.get? i = some r →
    (applyRulesAux rsearch ml rules st).2.get? i =
      some (if ruleMatch rsearch ml r = true ∧
              confFold st.best_confidence ((rules.take i).filter (ruleMatch rsearch ml))
                < r.confidence
            then { r with usage_count := r.usage_count + 1 } else r) := by
  intro rules
  induction rules with
  | nil => intro st i r h; simp at h
  | cons x rs ih =>
    intro st i r hget
    cases i with
    | zero =>
      have hx : x = r := by simpa using hget
      subst hx
      rw [applyRulesAux_cons]
      by_cases hcond : ruleMatch rsearch ml x = true ∧ st.best_confidence < x.confidence
      · rw [if_pos hcond]
        simp only [List.get?_cons_zero, List.take_zero, List.filter_nil]
        rw [if_pos (by exact hcond)]
      · rw [if_neg hcond]
        simp only [List.get?_cons_zero, List.take_zero, List.filter_nil]
        rw [if_neg (by exact hcond)]
    | succ i' =>
      have hget' : rs.get? i' = some r := by simpa using hget
      have htake : ((x :: rs).take (i' + 1)).filter (ruleMatch rsearch ml) =
          if ruleMatch rsearch ml x then
            x :: (rs.take i').filter (ruleMatch rsearch ml)
          else (rs.take i').filter (ruleMatch rsearch ml) := by
        simp [List.take_succ_cons, List.filter_cons]
      rw [applyRulesAux_cons]
      by_cases hm : ruleMatch rsearch ml x = true
      · by_cases hc : st.best_confidence < x.confidence
        · rw [if_pos ⟨hm, hc⟩]
          have := ih ⟨x.category, x.confidence, "rule_" ++ x.rule_type⟩ i' r hget'
          simp only [List.get?_cons_succ]
          rw [this, htake, if_pos hm, confFold_cons]
          have hmax : max st.best_confidence x.confidence = x.confidence :=
            max_eq_right (le_of_lt hc)
          rw [show (⟨x.category, x.confidence, "rule_" ++ x.rule_type⟩ :
              ApplyState).best_confidence = x.confidence from rfl] at this ⊢
          rw [hmax]
        · rw [if_neg (by simp [hc])]
          have := ih st i' r hget'
          simp only [List.get?_cons_succ]
          rw [this, htake, if_pos hm, confFold_cons]
          have hmax : max st.best_confidence x.confidence = st.best_confidence :=
            max_eq_left (le_of_not_lt hc)
          rw [hmax]
      · rw [if_neg (by simp [hm])]
        have := ih st i' r hget'
        simp only [List.get?_cons_succ]
        rw [this, htake, if_neg hm]

/-- C9 (amended): on each `_apply_rules` call, the rule at index `i` of
the stored list has its `usage_count` incremented exactly when it matches
the merchant **and strictly improves the running best confidence at that
point** (the maximum of 0.0 and the confidences of earlier matching
rules) — not only when it finally wins; every other field, and every
rule that does not improve the running best, is unchanged. -/
theorem applyRules_usage_update (rsearch : String → Option (String → Bool))
    (rules : List CategoryRule) (m : String) :
    ∀ i r, rules.get? i = some r →
    (applyRules rsearch rules m).2.get? i =
      some (if ruleMatch rsearch (pyLower m) r = true ∧
              runningBestAt rsearch (pyLower m) rules i < r.confidence
            then { r with usage_count := r.usage_count + 1 } else r) := by
  intro i r hget
  have h := applyRulesAux_usage rsearch (pyLower m) rules initApplyState i r hget
  simpa [applyRules, runningBestAt, initApplyState] using h

/-- C9 counterexample: with two `contains` rules of confidences 0.5 and
0.8 both matching `"a"`, the second rule wins the match, yet the first
(non-winning) rule's `usage_count` is also incremented — it improved the
running best when it was examined. This refutes "incremented exactly
when that rule wins". -/
theorem applyRules_usage_update_cex :
    (applyRules rsNone
      [⟨"a", "X", mkRat 1 2, "contains", "system", 0, 0⟩,
       ⟨"a", "Y", mkRat 4 5, "contains", "system", 0, 0⟩] "a").1 =
      ("Y", mkRat 4 5, "rule_contains") ∧
    (applyRules rsNone
      [⟨"a", "X", mkRat 1 2, "contains", "system", 0, 0⟩,
       ⟨"a", "Y", mkRat 4 5, "contains", "system", 0, 0⟩] "a").2 =
      [⟨"a", "X", mkRat 1 2, "contains", "system", 0, 1⟩,
       ⟨"a", "Y", mkRat 4 5, "contains", "system", 0, 1⟩] := by decide

/-- C9 witness: the amended update rule applied at index 0 of a concrete
two-rule list — the first rule matches and improves the (empty) running
best, so its count is bumped. -/
theorem applyRules_usage_update_witness :
    (applyRules rsNone
      [⟨"a", "X", mkRat 1 2, "contains", "system", 0, 0⟩,
       ⟨"a", "Y", mkRat 4 5, "contains", "system", 0, 0⟩] "a").2.get? 0 =
      some ⟨"a", "X", mkRat 1 2, "contains", "system", 0, 1⟩ := by
  rw [applyRules_usage_update rsNone
      [⟨"a", "X", mkRat 1 2, "contains", "system", 0, 0⟩,
       ⟨"a", "Y", mkRat 4 5, "contains", "system", 0, 0⟩] "a" 0
      ⟨"a", "X", mkRat 1 2, "contains", "system", 0, 0⟩ rfl]
  decide

/-! ## Claim C10: malformed regex rules are skipped -/

theorem ruleMatch_invalid_regex (rsearch : String → Option (String → Bool))
    (ml : String) (r0 : CategoryRule)
    (h1 : r0.rule_type = "regex") (h2 : rsearch r0.pattern = none) :
    ruleMatch rsearch ml r0 = false := by
  simp [ruleMatch, h1, h2]

/-- Inserting a never-matching rule anywhere leaves the loop's result
unchanged and returns that rule itself untouched in place. -/
theorem applyRulesAux_skip (rsearch : String → Option (String → Bool)) (ml : String)
    (r0 : CategoryRule) (hm : ruleMatch rsearch ml r0 = false) :
    ∀ (l₁ l₂ : List CategoryRule) (st : ApplyState),
    applyRulesAux rsearch ml (l₁ ++ r0 :: l₂) st =
      ((applyRulesAux rsearch ml (l₁ ++ l₂) st).1,
       (applyRulesAux rsearch ml (l₁ ++ l₂) st).2.take l₁.length ++
         r0 :: (applyRulesAux rsearch ml (l₁ ++ l₂) st).2.drop l₁.length) := by
  intro l₁
  induction l₁ with
  | nil =>
    intro l₂ st
    simp only [List.nil_append, List.length_nil, List.take_zero, List.drop_zero]
    rw [applyRulesAux_cons, if_neg (by simp [hm])]
  | cons x l₁' ih =>
    intro l₂ st
    simp only [List.cons_append, List.length_cons]
    rw [applyRulesAux_cons, applyRulesAux_cons]
    by_cases hcond : ruleMatch rsearch ml x = true ∧ st.best_confidence < x.confidence
    · rw [if_pos hcond, if_pos hcond, ih]
      simp [List.take_succ_cons, List.drop_succ_cons]
    · rw [if_neg hcond, if_neg hcond, ih]
      simp [List.take_succ_cons, List.drop_succ_cons]

/-- C10 (confirmed): a rule of `rule_type="regex"` whose pattern does not
compile (`re.error`) is skipped by `_apply_rules`: the returned triple is
the one computed over the list without that rule (so it never matches and
never wins), the rule itself is returned unchanged in its position, and —
the embedding being a total function on this input — the call does not
raise. -/
theorem applyRules_skips_invalid_regex (rsearch : String → Option (String → Bool))
    (l₁ l₂ : List CategoryRule) (r0 : CategoryRule) (m : String)
    (h1 : r0.rule_type = "regex") (h2 : rsearch r0.pattern = none) :
    (applyRules rsearch (l₁ ++ r0 :: l₂) m).1 = (applyRules rsearch (l₁ ++ l₂) m).1 ∧
    (applyRules rsearch (l₁ ++ r0 :: l₂) m).2 =
      (applyRules rsearch (l₁ ++ l₂) m).2.take l₁.length ++
        r0 :: (applyRules rsearch (l₁ ++ l₂) m).2.drop l₁.length := by
  have hm := ruleMatch_invalid_regex rsearch (pyLower m) r0 h1 h2
  constructor
  · simp [applyRules, applyRulesAux_skip rsearch (pyLower m) r0 hm l₁ l₂]
  · simp [applyRules, applyRulesAux_skip rsearch (pyLower m) r0 hm l₁ l₂]

/-- C10 witness: a malformed regex rule `"("` of confidence 0.99 sitting
in front of a matching 0.8 `contains` rule neither wins nor is modified;
the result is that of the list without it. -/
theorem applyRules_skips_invalid_regex_witness :
    (applyRules rsNone
      [⟨"(", "Z", conf 99, "regex", "system", 0, 0⟩,
       ⟨"a", "X", conf 80, "contains", "system", 0, 0⟩] "a").1 =
      (applyRules rsNone [⟨"a", "X", conf 80, "contains", "system", 0, 0⟩] "a").1 ∧
    (applyRules rsNone
      [⟨"(", "Z", conf 99, "regex", "system", 0, 0⟩,
       ⟨"a", "X", conf 80, "contains", "system", 0, 0⟩] "a").2 =
      ⟨"(", "Z", conf 99, "regex", "system", 0, 0⟩ ::
        (applyRules rsNone [⟨"a", "X", conf 80, "contains", "system", 0, 0⟩] "a").2 :=
  applyRules_skips_invalid_regex rsNone []
    [⟨"a", "X", conf 80, "contains", "system", 0, 0⟩]
    ⟨"(", "Z", conf 99, "regex", "system", 0, 0⟩ "a" rfl rfl

/-! ## Claim C3: invariants of `_learn_from_categorization` -/

/-- The (pattern, category) identity of a rule, used by the duplicate
check of `_learn_from_categorization` (lines 274-277). -/
def rulePair (r : CategoryRule) : String × String := (r.pattern, r.category)

/-- Shape of every rule appended by one `_learn_from_categorization`
call: a `contains` rule of confidence 0.6 for the given category,
attributed to `source`, whose pattern is the lowercasing of a keyword of
length ≥ 3 drawn from `K`. -/
def LearnedFrom (category source : String) (now : Nat) (K : List String)
    (a : CategoryRule) : Prop :=
  a.category = category ∧ a.rule_type = "contains" ∧ a.confidence = conf 60 ∧
  a.created_by = source ∧ a.created_at = now ∧ a.usage_count = 0 ∧
  ∃ k, k ∈ K ∧ a.pattern = pyLower k ∧ 3 ≤ k.length

theorem learnStep_fold (category source : String) (now : Nat)
    (rules : List CategoryRule) (K : List String) :
    ∀ (ks : List String), (∀ k ∈ ks, k ∈ K) →
    ∀ (acc added : List CategoryRule),
    acc = rules ++ added →
    (added.map rulePair).Nodup →
    (∀ a ∈ added, rulePair a ∉ rules.map rulePair ∧
      LearnedFrom category source now K a) →
    ∃ added', ks.foldl (learnStep category source now) acc = rules ++ added' ∧
      (added'.map rulePair).Nodup ∧
      ∀ a ∈ added', rulePair a ∉ rules.map rulePair ∧
        LearnedFrom category source now K a := by
  intro ks
  induction ks with
  | nil =>
    intro _ acc added hacc hnd hok
    exact ⟨added, hacc ▸ rfl, hnd, hok⟩
  | cons k ks' ih =>
    intro hks acc added hacc hnd hok
    have hk : k ∈ K := hks k (by simp)
    have hks' : ∀ x ∈ ks', x ∈ K := fun x hx => hks x (by simp [hx])
    simp only [List.foldl_cons]
    by_cases hlen : 3 ≤ k.length
    · by_cases hdup : acc.any (fun r =>
        r.pattern == pyLower k && r.category == category) = true
      · have hstep : learnStep category source now acc k = acc := by
          simp only [learnStep, if_pos hlen]
          rw [if_pos]
          exact hdup
        rw [hstep]
        exact ih hks' acc added hacc hnd hok
      · have hstep : learnStep category source now acc k =
            acc ++ [⟨pyLower k, category, conf 60, "contains", source, now, 0⟩] := by
          simp only [learnStep, if_pos hlen]
          rw [if_neg]
          exact hdup
        rw [hstep]
        have hnew : ∀ r ∈ acc,
            rulePair r ≠ (pyLower k, category) := by
          intro r hr heqp
          apply hdup
          rw [List.any_eq_true]
          refine ⟨r, hr, ?_⟩
          have h1 : r.pattern = pyLower k := congrArg Prod.fst heqp
          have h2 : r.category = category := congrArg Prod.snd heqp
          simp [h1, h2]
        refine ih hks'
          (acc ++ [⟨pyLower k, category, conf 60, "contains", source, now, 0⟩])
          (added ++ [⟨pyLower k, category, conf 60, "contains", source, now, 0⟩])
          (by rw [hacc, List.append_assoc]) ?_ ?_
        · rw [List.map_append]
          rw [List.nodup_append]
          refine ⟨hnd, by simp, ?_⟩
          intro p hp
          simp only [List.map_cons, List.map_nil, List.mem_singleton]
          intro hp'
          have hmem : ∃ a ∈ added, rulePair a = p := by
            simpa using hp
          rcases hmem with ⟨a, ha, hap⟩
          exact hnew a (hacc ▸ List.mem_append_right rules ha)
            (by rw [hap, hp']; rfl)
        · intro a ha
          rcases List.mem_append.1 ha with h | h
          · exact hok a h
          · have ha' : a = ⟨pyLower k, category, conf 60, "contains", source, now, 0⟩ := by
              simpa using h
            subst ha'
            constructor
            · intro hmem
              have : ∃ r ∈ rules, rulePair r = (pyLower k, category) := by
                simpa using hmem
              rcases this with ⟨r, hr, hrp⟩
              exact hnew r (hacc ▸ List.mem_append_left added hr) (by rw [hrp])
            · exact ⟨rfl, rfl, rfl, rfl, rfl, rfl, k, hk, rfl, hlen⟩
    · have hstep : learnStep category source now acc k = acc := by
        simp only [learnStep, if_neg hlen]
      rw [hstep]
      exact ih hks' acc added hacc hnd hok

/-- C3 (confirmed): `_learn_from_categorization` is a no-op when the
category is "Unknown" or "Other"; otherwise it returns the input rule
list extended by rules whose (pattern, category) pairs are pairwise
distinct and absent from the input list (so it never appends a duplicate
pair, including pairs appended earlier in the same call), and each
appended rule is a `contains` rule of confidence 0.6 with
`created_by = source` whose pattern is a lowercased extracted keyword of
length ≥ 3. -/
theorem learn_no_duplicates (rules : List CategoryRule)
    (merchant category source : String) (now : Nat) :
    ((category = "Unknown" ∨ category = "Other") →
      learnFromCategorization rules merchant category source now = rules) ∧
    ∃ added, learnFromCategorization rules merchant category source now = rules ++ added ∧
      (added.map rulePair).Nodup ∧
      ∀ a ∈ added, rulePair a ∉ rules.map rulePair ∧
        LearnedFrom category source now (extractKeywords merchant) a := by
  constructor
  · intro h
    unfold learnFromCategorization
    rw [if_neg]
    rcases h with h | h <;> simp [h]
  · unfold learnFromCategorization
    by_cases h : category ≠ "Unknown" ∧ category ≠ "Other"
    · rw [if_pos h]
      exact learnStep_fold category source now rules (extractKeywords merchant)
        (extractKeywords merchant) (fun _ hk => hk) rules [] (by simp) (by simp) (by simp)
    · rw [if_neg h]
      exact ⟨[], by simp, by simp, by simp⟩

/-- C3 witness: learning from category "Unknown" adds nothing. -/
theorem learn_no_duplicates_witness :
    learnFromCategorization [] "starbucks coffee" "Unknown" "llm" 0 = [] :=
  (learn_no_duplicates [] "starbucks coffee" "Unknown" "llm" 0).1 (Or.inl rfl)

/-! ## Claim C6: `find_fuzzy_match` -/

/-- Run of the `find_fuzzy_match` loop relative to an already-processed
portion `pre` of the cache: from a state that is correct for `pre`, the
loop produces a result that is correct for `pre ++ l` — `none` with all
scores below threshold, or the first entry attaining the maximal score,
which is at least the threshold. -/
theorem fuzzyAux_char (simf : String → String → Nat) (item : String)
    (th : Nat) (hth : 0 < th) :
    ∀ (l pre : Cache) (best : Option (String × String × Nat)) (bs : Nat),
    ((best = none ∧ bs = 0 ∧ ∀ p ∈ pre, simf item p.1 < th) ∨
     (∃ ci cat c₁ c₂, best = some (ci, cat, bs) ∧ bs = simf item ci ∧ th ≤ bs ∧
        pre = c₁ ++ (ci, cat) :: c₂ ∧ (∀ p ∈ c₁, simf item p.1 < bs) ∧
        ∀ p ∈ pre, simf item p.1 ≤ bs)) →
    ((fuzzyAux simf item th l best bs = none ∧ ∀ p ∈ pre ++ l, simf item p.1 < th) ∨
     (∃ ci cat sc c₁ c₂, fuzzyAux simf item th l best bs = some (ci, cat, sc) ∧
        sc = simf item ci ∧ th ≤ sc ∧ pre ++ l = c₁ ++ (ci, cat) :: c₂ ∧
        (∀ p ∈ c₁, simf item p.1 < sc) ∧ ∀ p ∈ pre ++ l, simf item p.1 ≤ sc)) := by
  intro l
  induction l with
  | nil =>
    intro pre best bs hinv
    rcases hinv with ⟨hb, _, hall⟩ | ⟨ci, cat, c₁, c₂, hb, hsc, hle, hpre, hc₁, hall⟩
    · exact Or.inl ⟨hb ▸ rfl, by simpa using hall⟩
    · exact Or.inr ⟨ci, cat, bs, c₁, c₂, hb ▸ rfl, hsc, hle, by simpa using hpre,
        hc₁, by simpa using hall⟩
  | cons e l' ih =>
    intro pre best bs hinv
    have hassoc : pre ++ e :: l' = (pre ++ [e]) ++ l' := by simp
    rw [hassoc]
    show _ ∨ _
    by_cases hcond : bs < simf item e.1 ∧ th ≤ simf item e.1
    · have hstep : fuzzyAux simf item th (e :: l') best bs =
          fuzzyAux simf item th l' (some (e.1, e.2, simf item e.1)) (simf item e.1) := by
        simp only [fuzzyAux]
        rw [if_pos hcond]
      rw [hstep]
      apply ih (pre ++ [e])
      refine Or.inr ⟨e.1, e.2, pre, [], rfl, rfl, hcond.2, by simp, ?_, ?_⟩
      · intro p hp
        rcases hinv with ⟨_, hbs0, hall⟩ | ⟨ci, cat, c₁, c₂, _, _, _, _, _, hall⟩
        · exact lt_of_lt_of_le (hall p hp) hcond.2
        · exact lt_of_le_of_lt (hall p hp) hcond.1
      · intro p hp
        rcases List.mem_append.1 hp with h | h
        · rcases hinv with ⟨_, hbs0, hall⟩ | ⟨ci, cat, c₁, c₂, _, _, _, _, _, hall⟩
          · exact le_of_lt (lt_of_lt_of_le (hall p h) hcond.2)
          · exact le_of_lt (lt_of_le_of_lt (hall p h) hcond.1)
        · have : p = e := by simpa using h
          exact this ▸ le_refl _
    · have hstep : fuzzyAux simf item th (e :: l') best bs =
          fuzzyAux simf item th l' best bs := by
        simp only [fuzzyAux]
        rw [if_neg hcond]
      rw [hstep]
      apply ih (pre ++ [e])
      have hside : simf item e.1 ≤ bs ∨ simf item e.1 < th := by
        by_cases h1 : bs < simf item e.1
        · right
          by_cases h2 : th ≤ simf item e.1
          · exact absurd ⟨h1, h2⟩ hcond
          · exact lt_of_not_le h2
        · left; exact le_of_not_lt h1
      rcases hinv with ⟨hb, hbs0, hall⟩ | ⟨ci, cat, c₁, c₂, hb, hsc, hle, hpre, hc₁, hall⟩
      · refine Or.inl ⟨hb, hbs0, ?_⟩
        intro p hp
        rcases List.mem_append.1 hp with h | h
        · exact hall p h
        · have hpe : p = e := by simpa using h
          subst hpe
          rcases hside with h | h
          · rw [hbs0] at h
            exact lt_of_le_of_lt h hth
          · exact h
      · refine Or.inr ⟨ci, cat, c₁, c₂ ++ [e], hb, hsc, hle, by rw [hpre]; simp, hc₁, ?_⟩
        intro p hp
        rcases List.mem_append.1 hp with h | h
        · exact hall p h
        · have hpe : p = e := by simpa using h
          subst hpe
          rcases hside with h | h
          · exact h
          · exact le_of_lt (lt_of_lt_of_le h hle)

/-- C6 (confirmed): with threshold 85, `find_fuzzy_match` returns `none`
exactly when every cached key scores below 85; otherwise it returns the
cached entry with the highest similarity score — the first such entry in
the cache's insertion order when several share the maximal score —
together with that score. -/
theorem find_fuzzy_match_spec (simf : String → String → Nat) (item : String)
    (cache : Cache) :
    (find_fuzzy_match simf item cache = none → ∀ p ∈ cache, simf item p.1 < 85) ∧
    (∀ ci cat sc, find_fuzzy_match simf item cache = some (ci, cat, sc) →
      sc = simf item ci ∧ 85 ≤ sc ∧
      ∃ c₁ c₂, cache = c₁ ++ (ci, cat) :: c₂ ∧
        (∀ p ∈ c₁, simf item p.1 < sc) ∧ ∀ p ∈ cache, simf item p.1 ≤ sc) := by
  have h := fuzzyAux_char simf item 85 (by decide) cache [] none 0
    (Or.inl ⟨rfl, rfl, by simp⟩)
  rw [List.nil_append] at h
  constructor
  · intro hn
    rcases h with ⟨_, hall⟩ | ⟨ci, cat, sc, c₁, c₂, hsome, _⟩
    · exact hall
    · rw [show find_fuzzy_match simf item cache =
          fuzzyAux simf item 85 cache none 0 from rfl] at hn
      rw [hn] at hsome
      exact absurd hsome (by simp)
  · intro ci cat sc hsome
    rw [show find_fuzzy_match simf item cache =
        fuzzyAux simf item 85 cache none 0 from rfl] at hsome
    rcases h with ⟨hnone, _⟩ | ⟨ci', cat', sc', c₁, c₂, hsome', hsc, hth, hsplit, hc₁, hall⟩
    · rw [hnone] at hsome
      exact absurd hsome (by simp)
    · rw [hsome'] at hsome
      have h1 : ci' = ci := congrArg (fun o => (o.getD ("", "", 0)).1) hsome
      have h2 : cat' = cat := congrArg (fun o => (o.getD ("", "", 0)).2.1) hsome
      have h3 : sc' = sc := congrArg (fun o => (o.getD ("", "", 0)).2.2) hsome
      subst h1; subst h2; subst h3
      exact ⟨hsc, hth, c₁, c₂, hsplit, hc₁, hall⟩

/-- A constant similarity oracle scoring every pair 10. -/
def simfStub : String → String → Nat := fun _ _ => 10

/-- C6 witness: with a constant score of 10, the lookup misses and the
spec theorem yields that the only cached key scores below 85. -/
theorem find_fuzzy_match_spec_witness : simfStub "q" "a" < 85 :=
  (find_fuzzy_match_spec simfStub "q" [("a", "A")]).1 rfl ("a", "A") (by simp)

/-! ## Claim C4: exact cache hits in the review loop -/

theorem afterConfirm_suggested (w : Option (String × String)) (item sug : String)
    (cache : Cache) (cf : String) (later : List String) (cs : List RemoteCall) :
    (afterConfirm w item sug cache cf later cs).suggested = sug := by
  unfold afterConfirm
  repeat' split
  all_goals rfl

/-- C4 (amended): the claim fails on both of its cited operations.
(i) The engine's categorize operation, `categorize_merchant`, does not
consult the exact-match cache at all — the cache exists only in the
`categorize.py`/`util.py` flow and is not even an input of the engine —
so it does not return the cached category: with an empty rule store and
no configured client it returns `("Unknown", 0.0, "no_match")` for every
nonempty merchant string, whatever the cache holds for that merchant
(first conjunct). (ii) In the review loop, a merchant with an exact
cache entry has the cached category presented as the suggestion with no
remote call made to produce it (second conjunct), and when the reviewer
accepts with `y` the recorded category is the cached one and no remote
call happens in the whole iteration (third conjunct) — but a reviewer
answering `n` triggers the web-search remote call, and any other answer
is recorded verbatim in place of the cached category (see the
counterexample). -/
theorem exact_cache_hit_flow (simf : String → String → Nat)
    (webOracle : Option (String × String)) (llmCat : String → String)
    (item : String) (cache : Cache) (inputs : List String) (c : String)
    (hcache : cache.lookup item = some c) :
    (∀ (rsearch : String → Option (String → Bool)) (now : Nat), item ≠ "" →
      categorizeMerchant rsearch none [] (PyVal.pstr item) now =
        .ok ⟨("Unknown", 0, "no_match"), [], false⟩) ∧
    (processItem simf webOracle llmCat item cache inputs).suggested = c ∧
    (pyLower (pyStrip ((inputs.get? 0).getD "")) = "y" →
      (processItem simf webOracle llmCat item cache inputs).recorded = c ∧
      (processItem simf webOracle llmCat item cache inputs).calls = []) := by
  refine ⟨?_, ?_, ?_⟩
  · intro rsearch now hitem
    unfold categorizeMerchant
    rw [if_neg (by simp [pyTruthy, isFloat, hitem])]
    dsimp only
    rw [show (applyRules rsearch [] (cleanMerchantName item)).1.2.1 = (0 : ℚ) from rfl]
    rw [if_neg (by decide : ¬ (conf 70 < (0 : ℚ)))]
    rw [if_neg (by decide : ¬ ((0 : ℚ) < 0))]
    rfl
  · have hproc : processItem simf webOracle llmCat item cache inputs =
        afterConfirm webOracle item c cache
          (pyStrip ((inputs.get? 0).getD "")) (inputs.drop 1) [] := by
      unfold processItem
      rw [hcache]
    rw [hproc]
    exact afterConfirm_suggested _ _ _ _ _ _ _
  · intro hy
    have hproc : processItem simf webOracle llmCat item cache inputs =
        afterConfirm webOracle item c cache
          (pyStrip ((inputs.get? 0).getD "")) (inputs.drop 1) [] := by
      unfold processItem
      rw [hcache]
    rw [hproc]
    have hif : (pyLower (pyStrip ((inputs.get? 0).getD "")) == "y") = true := by
      rw [hy]; rfl
    unfold afterConfirm
    rw [if_pos hif]
    exact ⟨rfl, rfl⟩

/-- C4 counterexample: merchant `"A"` has the exact cache entry
`("A", "Shopping")`, yet (i) the engine's `categorize_merchant` (which
takes no cache) returns `("Unknown", 0.0, "no_match")` — its returned
category is not the cached `"Shopping"`; (ii) in the review loop, when
the reviewer types a custom category `"Food"`, the flow records
`"Food"`, not the cached category; and (iii) when the reviewer answers
`n`, the flow performs the web-search remote call. -/
theorem exact_cache_hit_flow_cex :
    List.lookup "A" [("A", "Shopping")] = some "Shopping" ∧
    categorizeMerchant rsNone none [] (PyVal.pstr "A") 0 =
      Except.ok ⟨("Unknown", 0, "no_match"), [], false⟩ ∧
    (categorizeMerchant rsNone none [] (PyVal.pstr "A") 0).map
      (fun o => o.result.1) ≠ Except.ok "Shopping" ∧
    (processItem simfStub none (fun _ => "Other") "A"
      [("A", "Shopping")] ["Food"]).recorded ≠ "Shopping" ∧
    (processItem simfStub none (fun _ => "Other") "A"
      [("A", "Shopping")] ["Food"]).recorded = "Food" ∧
    (processItem simfStub (some ("X", "info")) (fun _ => "Other") "A"
      [("A", "Shopping")] ["n", "y"]).calls = [RemoteCall.webSearch] := by decide

/-- C4 witness: for the cached merchant `"A"`, the engine returns its
cache-independent `no_match` verdict, while the review loop, on an
accepted suggestion, records the cached category with no remote call. -/
theorem exact_cache_hit_flow_witness :
    categorizeMerchant rsNone none [] (PyVal.pstr "A") 0 =
      .ok ⟨("Unknown", 0, "no_match"), [], false⟩ ∧
    (processItem simfStub none (fun _ => "Other") "A"
      [("A", "Shopping")] ["y"]).recorded = "Shopping" ∧
    (processItem simfStub none (fun _ => "Other") "A"
      [("A", "Shopping")] ["y"]).calls = [] :=
  ⟨(exact_cache_hit_flow simfStub none (fun _ => "Other") "A"
      [("A", "Shopping")] ["y"] "Shopping" (by decide)).1 rsNone 0 (by decide),
   ((exact_cache_hit_flow simfStub none (fun _ => "Other") "A"
      [("A", "Shopping")] ["y"] "Shopping" (by decide)).2.2 (by decide)).1,
   ((exact_cache_hit_flow simfStub none (fun _ => "Other") "A"
      [("A", "Shopping")] ["y"] "Shopping" (by decide)).2.2 (by decide)).2⟩

/-! ## Claim C7: invalid input to `categorize_merchant` -/

/-- C7 (amended): for every input that is falsy (empty string, `None`,
zero) or a float — the guard `not merchant or isinstance(merchant,
float)` — `categorize_merchant` returns `("Unknown", 0.0,
"invalid_input")` without touching the rules and without any remote
call. (The claim's "every non-string input" fails: a truthy non-float
non-string raises; see the counterexample.) -/
theorem categorize_invalid_input (rsearch : String → Option (String → Bool))
    (llm : Option (String → String × ℚ × String)) (rules : List CategoryRule)
    (now : Nat) (v : PyVal)
    (h : pyTruthy v = false ∨ isFloat v = true) :
    categorizeMerchant rsearch llm rules v now =
      .ok ⟨("Unknown", 0, "invalid_input"), rules, false⟩ := by
  unfold categorizeMerchant
  rw [if_pos]
  rcases h with h | h <;> simp [h]

/-- C7 counterexample: the truthy non-float non-string input `5` is not
caught by the guard; `_clean_merchant_name` then hands the integer to
`re.sub`, which raises `TypeError` — the call does not return
`("Unknown", 0.0, "invalid_input")`. -/
theorem categorize_invalid_input_cex :
    categorizeMerchant rsNone none [] (PyVal.pint 5) 0 =
      Except.error "TypeError: expected string or bytes-like object" ∧
    categorizeMerchant rsNone none [] (PyVal.pint 5) 0 ≠
      Except.ok ⟨("Unknown", 0, "invalid_input"), [], false⟩ := by decide

/-- C7 witness: the empty string is falsy and yields `invalid_input` with
untouched rules and no remote call. -/
theorem categorize_invalid_input_witness :
    categorizeMerchant rsNone (some llmStub) [] (PyVal.pstr "") 0 =
      .ok ⟨("Unknown", 0, "invalid_input"), [], false⟩ :=
  categorize_invalid_input rsNone (some llmStub) [] 0 (PyVal.pstr "") (Or.inl rfl)

/-! ## Claim C8: `load_cache` error behaviour -/

/-- C8 (amended): `load_cache` returns the empty cache when the file is
absent, and otherwise returns `json.load`'s outcome unchanged — there is
no `try/except`, so a parse failure on corrupt contents propagates as an
exception instead of yielding an empty cache. -/
theorem load_cache_behavior (jsonLoad : String → Except String Cache) :
    load_cache jsonLoad none = .ok [] ∧
    ∀ s, load_cache jsonLoad (some s) = jsonLoad s :=
  ⟨rfl, fun _ => rfl⟩

/-- C8 counterexample: with contents on which `json.load` raises
`JSONDecodeError`, `load_cache` propagates the exception and does not
return an empty cache. -/
theorem load_cache_behavior_cex :
    load_cache (fun _ => .error "JSONDecodeError") (some "corrupt") =
      .error "JSONDecodeError" ∧
    load_cache (fun _ => .error "JSONDecodeError") (some "corrupt") ≠
      (.ok [] : Except String Cache) := by
  exact ⟨rfl, by decide⟩

/-! ## Claim C2: high-confidence rules bypass the remote classifier -/

/-- C2 (confirmed), general part: whenever the best rule match on the
cleaned merchant name has confidence strictly above 0.7,
`categorize_merchant` returns exactly that rule result, with the rule
list updated by the rule application only, and performs no remote call. -/
theorem categorize_high_confidence_rule (rsearch : String → Option (String → Bool))
    (llm : Option (String → String × ℚ × String)) (rules : List CategoryRule)
    (now : Nat) (s : String) (hs : s ≠ "")
    (hconf : conf 70 < (applyRules rsearch rules (cleanMerchantName s)).1.2.1) :
    categorizeMerchant rsearch llm rules (.pstr s) now =
      .ok ⟨(applyRules rsearch rules (cleanMerchantName s)).1,
           (applyRules rsearch rules (cleanMerchantName s)).2, false⟩ := by
  unfold categorizeMerchant
  rw [if_neg (by simp [pyTruthy, isFloat, hs])]
  dsimp only
  rw [if_pos hconf]

/-- C2 witness: with the full seeded default rule set (which contains the
rule `pattern="amazon", category="Shopping", confidence=0.95`) and a
configured remote classifier, `categorize_merchant("AMAZON.CO.JP")`
returns `("Shopping", 0.95, "rule_contains")` and the remote classifier
is not called. -/
theorem categorize_high_confidence_rule_witness :
    (categorizeMerchant rsNone (some llmStub) (defaultRules 0)
        (PyVal.pstr "AMAZON.CO.JP") 0).map (fun o => (o.result, o.llmCalled)) =
      Except.ok (("Shopping", conf 95, "rule_contains"), false) := by
  rw [categorize_high_confidence_rule rsNone (some llmStub) (defaultRules 0) 0
    "AMAZON.CO.JP" (by decide) (by decide)]
  decide

/-! ## Claim C5: review presentation ordering -/

theorem mem_insDescBy (key : α → Int) (e : α) (l : List α) (y : α) :
    y ∈ insDescBy key e l ↔ y = e ∨ y ∈ l := by
  induction l with
  | nil => simp [insDescBy]
  | cons x xs ih =>
    unfold insDescBy
    by_cases h : key e < key x
    · rw [if_pos h]
      simp only [List.mem_cons, ih]
      tauto
    · rw [if_neg h]
      simp only [List.mem_cons]

theorem mem_sortDescBy (key : α → Int) (l : List α) (y : α) :
    y ∈ sortDescBy key l ↔ y ∈ l := by
  induction l with
  | nil => simp [sortDescBy]
  | cons x xs ih =>
    unfold sortDescBy
    rw [mem_insDescBy]
    simp only [List.mem_cons, ih]

theorem pairwise_insDescBy (key : α → Int) (e : α) (l : List α)
    (h : l.Pairwise (fun a b => key b ≤ key a)) :
    (insDescBy key e l).Pairwise (fun a b => key b ≤ key a) := by
  induction l with
  | nil => simp [insDescBy]
  | cons x xs ih =>
    rw [List.pairwise_cons] at h
    obtain ⟨h1, h2⟩ := h
    unfold insDescBy
    by_cases hcmp : key e < key x
    · rw [if_pos hcmp, List.pairwise_cons]
      refine ⟨?_, ih h2⟩
      intro y hy
      rcases (mem_insDescBy key e xs y).1 hy with h | h
      · exact h ▸ le_of_lt hcmp
      · exact h1 y h
    · rw [if_neg hcmp, List.pairwise_cons]
      refine ⟨?_, List.pairwise_cons.2 ⟨h1, h2⟩⟩
      intro y hy
      rcases List.mem_cons.1 hy with h | h
      · exact h ▸ le_of_not_lt hcmp
      · exact le_trans (h1 y h) (le_of_not_lt hcmp)

theorem pairwise_sortDescBy (key : α → Int) (l : List α) :
    (sortDescBy key l).Pairwise (fun a b => key b ≤ key a) := by
  induction l with
  | nil => simp [sortDescBy]
  | cons x xs ih => exact pairwise_insDescBy key x _ ih

/-- Feeding an amount-sorted candidate list into the grouping fold keeps
every group internally sorted by amount (each appended element has an
amount no larger than any element already in its group). -/
theorem foldl_groups_pairwise :
    ∀ (l : List ReviewEntry) (gs : List (String × List ReviewEntry)),
    l.Pairwise amountDescending →
    (∀ g ∈ gs, g.2.Pairwise amountDescending) →
    (∀ g ∈ gs, ∀ x ∈ g.2, ∀ e ∈ l, e.total_amount ≤ x.total_amount) →
    ∀ g ∈ l.foldl (fun acc e => addToGroups acc (extractPattern e.merchant) e) gs,
      g.2.Pairwise amountDescending := by
  intro l
  induction l with
  | nil => intro gs _ hgs _ g hg; exact hgs g hg
  | cons e l' ih =>
    intro gs hl hgs hbound
    rw [List.pairwise_cons] at hl
    obtain ⟨hl1, hl2⟩ := hl
    simp only [List.foldl_cons]
    refine ih _ hl2 ?_ ?_
    · intro g hg
      unfold addToGroups at hg
      by_cases hany : gs.any (fun g' => g'.1 == extractPattern e.merchant) = true
      · rw [if_pos hany] at hg
        rcases List.mem_map.1 hg with ⟨g₀, hg₀, hup⟩
        by_cases hkey : (g₀.1 == extractPattern e.merchant) = true
        · rw [if_pos hkey] at hup
          rw [← hup]
          show (g₀.2 ++ [e]).Pairwise amountDescending
          rw [List.pairwise_append]
          refine ⟨hgs g₀ hg₀, by simp, ?_⟩
          intro x hx y hy
          have hye : y = e := by simpa using hy
          subst hye
          exact hbound g₀ hg₀ x hx y (by simp)
        · rw [if_neg hkey] at hup
          exact hup ▸ hgs g₀ hg₀
      · rw [if_neg hany] at hg
        rcases List.mem_append.1 hg with h | h
        · exact hgs g h
        · have : g = (extractPattern e.merchant, [e]) := by simpa using h
          subst this
          simp
    · intro g hg x hx e' he'
      unfold addToGroups at hg
      by_cases hany : gs.any (fun g' => g'.1 == extractPattern e.merchant) = true
      · rw [if_pos hany] at hg
        rcases List.mem_map.1 hg with ⟨g₀, hg₀, hup⟩
        by_cases hkey : (g₀.1 == extractPattern e.merchant) = true
        · rw [if_pos hkey] at hup
          rw [← hup] at hx
          have hx' : x ∈ g₀.2 ++ [e] := hx
          rcases List.mem_append.1 hx' with h | h
          · exact hbound g₀ hg₀ x h e' (by simp [he'])
          · have hxe : x = e := by simpa using h
            subst hxe
            exact hl1 e' he'
        · rw [if_neg hkey] at hup
          exact hbound g₀ hg₀ x (hup ▸ hx) e' (by simp [he'])
      · rw [if_neg hany] at hg
        rcases List.mem_append.1 hg with h | h
        · exact hbound g h x hx e' (by simp [he'])
        · have : g = (extractPattern e.merchant, [e]) := by simpa using h
          subst this
          have hxe : x = e := by simpa using hx
          subst hxe
          exact hl1 e' he'

/-- C5 (amended): the review workflow (i) sorts the candidate list so
that aggregate amounts are non-increasing, (ii) presents groups in
non-increasing order of group total amount, and (iii) presents the
merchants inside each group in non-increasing amount order. The global
property claimed — that over the whole session a merchant with larger
aggregate amount is never presented after one with a smaller amount —
fails once merchants are grouped: see the counterexample. -/
theorem review_order_props (ms : List ReviewEntry) :
    (getMerchantsForReview ms).Pairwise amountDescending ∧
    (groupSimilarMerchants (getMerchantsForReview ms)).Pairwise
      (fun g₁ g₂ => groupTotal g₂ ≤ groupTotal g₁) ∧
    ∀ g ∈ groupSimilarMerchants (getMerchantsForReview ms),
      g.2.Pairwise amountDescending := by
  refine ⟨pairwise_sortDescBy _ ms, pairwise_sortDescBy groupTotal _, ?_⟩
  intro g hg
  have hg2 : g ∈ sortDescBy groupTotal
      ((getMerchantsForReview ms).foldl
        (fun gs e => addToGroups gs (extractPattern e.merchant) e) []) := hg
  have hg' := (mem_sortDescBy _ _ g).1 hg2
  exact foldl_groups_pairwise (getMerchantsForReview ms) []
    (pairwise_sortDescBy _ ms) (by simp) (by simp) g hg'

/-- C5 counterexample: merchants X (amount 100, its own pattern group)
and Y, Z (amounts 60 and 50, sharing a pattern group with total 110).
The Y/Z group's total exceeds X's, so Y (amount 60) and Z (amount 50)
are presented before X (amount 100) — the presentation order over the
session is not non-increasing in aggregate amount. -/
theorem review_order_props_cex :
    ¬ (reviewPresentationOrder
        [⟨"XSHOP", "Unknown", 0, "no_match", 100, 1⟩,
         ⟨"YSHOP A", "Unknown", 0, "no_match", 60, 1⟩,
         ⟨"YSHOP B", "Unknown", 0, "no_match", 50, 1⟩]).Pairwise amountDescending := by
  intro h
  have horder : reviewPresentationOrder
      [⟨"XSHOP", "Unknown", 0, "no_match", 100, 1⟩,
       ⟨"YSHOP A", "Unknown", 0, "no_match", 60, 1⟩,
       ⟨"YSHOP B", "Unknown", 0, "no_match", 50, 1⟩] =
      [⟨"YSHOP A", "Unknown", 0, "no_match", 60, 1⟩,
       ⟨"YSHOP B", "Unknown", 0, "no_match", 50, 1⟩,
       ⟨"XSHOP", "Unknown", 0, "no_match", 100, 1⟩] := by decide
  rw [horder, List.pairwise_cons] at h
  have := h.1 ⟨"XSHOP", "Unknown", 0, "no_match", 100, 1⟩ (by simp)
  exact absurd this (by decide)

/-- C5 witness: a singleton candidate list — the only group is internally
sorted. -/
theorem review_order_props_witness :
    List.Pairwise amountDescending [(⟨"A A", "Unknown", 0, "no_match", 5, 1⟩ : ReviewEntry)] :=
  (review_order_props [⟨"A A", "Unknown", 0, "no_match", 5, 1⟩]).2.2
    ("A", [⟨"A A", "Unknown", 0, "no_match", 5, 1⟩]) (by decide)
